import Mathlib

/-!
# Verification of the Wio graphical data logger core

Shallow embedding of the algorithmic core of `wio_graphical_data_logger.ino`:
the sample combiner (`median3`), the value-transform selector, the adaptive
trimmed averager, the recording allocator (directory and file naming), and the
playback/zoom loader.  Machine floating-point (`double`) arithmetic is modelled
by exact rational arithmetic on `ℚ`; C `long`/`int` arithmetic by `ℤ`/`ℕ`
(the quantities involved stay far from the 32-bit overflow boundary);
characters by their (byte) character codes.
-/

/-! ## Sample combiner (`median3`, .ino lines 810-822)

`int median3(int a, int b, int c)`: `tmp = min(b, c); if (a < tmp) return tmp;
else { tmp = max(b, c); if (a > tmp) return tmp; } return a;` -/

def median3 (a b c : ℤ) : ℤ :=
  let tmp := min b c
  if a < tmp then tmp
  else
    let tmp2 := max b c
    if a > tmp2 then tmp2
    else a

/-! ## Value transform selection (.ino lines 121-123 and 721-731)

`TRANSFORMS = "LQRVclqr"`; the down button picks `TRANSFORMS[(p + 1) % 8]`,
the up button `TRANSFORMS[(p + 8 - 1) % 8]`, where `p` is the index of the
current `sample_transform` in `TRANSFORMS` (`p = 8` when not found). -/

def TRANSFORMS : List Char := ['L', 'Q', 'R', 'V', 'c', 'l', 'q', 'r']

def TRANSFORM_COUNT : ℕ := 8

/-- Index of the current transform in `TRANSFORMS`; like the scan loop of the
source it yields `TRANSFORM_COUNT` when the character is not found. -/
def transformIndex (c : Char) : ℕ :=
  TRANSFORMS.findIdx (fun t => t = c)

/-- The down-button action: pick the next transform. -/
def nextTransform (c : Char) : Char :=
  TRANSFORMS.getD ((transformIndex c + 1) % TRANSFORM_COUNT) 'L'

/-- The up-button action: pick the preceding transform. -/
def prevTransform (c : Char) : Char :=
  TRANSFORMS.getD ((transformIndex c + TRANSFORM_COUNT - 1) % TRANSFORM_COUNT) 'L'

/-! ## Playback zoom and pan (`showFile`, .ino lines 1308-1337)

State `(file_zoom_offset, file_zoom_duration)` with the file's total duration
`T = file_timestamp_end - file_timestamp_start`.  The literal `0.6666666667`
of the pan operations is kept exactly. -/

structure ZoomState where
  offset : ℚ
  duration : ℚ
deriving DecidableEq, Repr

/-- Joystick down: zoom in along the time axis (duration floored at 10 s). -/
def zoomIn (T : ℚ) (z : ZoomState) : ZoomState :=
  let d := max 10 (z.duration / 2)
  let o := z.offset + d / 2
  ⟨max 0 (min o (T - d)), d⟩

/-- Joystick up: zoom out along the time axis (duration capped at `T`);
the offset is clamped below by 0 only. -/
def zoomOut (T : ℚ) (z : ZoomState) : ZoomState :=
  let o := z.offset - z.duration / 2
  let d := min (z.duration * 2) T
  ⟨max 0 o, d⟩

/-- Joystick left: scroll back by 2/3 of the shown duration. -/
def panLeft (z : ZoomState) : ZoomState :=
  ⟨max 0 (z.offset - z.duration * (6666666667 / 10000000000)), z.duration⟩

/-- Joystick right: scroll forward by 2/3 of the shown duration. -/
def panRight (T : ℚ) (z : ZoomState) : ZoomState :=
  let o := z.offset + z.duration * (6666666667 / 10000000000)
  ⟨max 0 (min o (T - z.duration)), z.duration⟩

/-- The ZoomWindow invariant claimed by the specification:
`0 ≤ offset` and `offset + duration ≤ total_duration`. -/
def ZoomInvariant (z : ZoomState) (T : ℚ) : Prop :=
  0 ≤ z.offset ∧ z.offset + z.duration ≤ T

instance (z : ZoomState) (T : ℚ) : Decidable (ZoomInvariant z T) := by
  unfold ZoomInvariant; infer_instance

/-! ## C9: median property of the sample combiner -/

/-- Closed form of `median3` as a max-min expression, used to settle C9. -/
theorem median3_eq_minmax (a b c : ℤ) :
    median3 a b c = max (min a b) (min (max a b) c) := by
  simp only [median3]
  split_ifs <;> omega

/-- C9: for all integer triples, `median3` returns a value equal to one of the
three inputs, not less than their minimum and not greater than their maximum,
and the same value for every permutation of the arguments (so it is a pure
function of the multiset). -/
theorem median3_is_median (a b c : ℤ) :
    (median3 a b c = a ∨ median3 a b c = b ∨ median3 a b c = c) ∧
    min a (min b c) ≤ median3 a b c ∧
    median3 a b c ≤ max a (max b c) ∧
    median3 a b c = median3 a c b ∧
    median3 a b c = median3 b a c ∧
    median3 a b c = median3 b c a ∧
    median3 a b c = median3 c a b ∧
    median3 a b c = median3 c b a := by
  simp only [median3_eq_minmax]
  omega

/-! ## C10: the transform selector cycles with period 8 -/

/-- C10: on the 8-character set `TRANSFORMS`, the down-button step followed by
the up-button step restores the original transform (and vice versa); the
down-button step stays inside the set, its first 8 iterates enumerate the
whole set, and no iterate of fewer than 8 steps is the identity at any
element (period exactly 8). -/
theorem transform_cycle (c : Char) (hc : c ∈ TRANSFORMS) :
    prevTransform (nextTransform c) = c ∧
    nextTransform (prevTransform c) = c ∧
    nextTransform c ∈ TRANSFORMS ∧
    prevTransform c ∈ TRANSFORMS ∧
    ((List.range 8).map (fun k => nextTransform^[k] c)).Nodup ∧
    (∀ t ∈ TRANSFORMS, t ∈ (List.range 8).map (fun k => nextTransform^[k] c)) ∧
    (∀ k, k < 8 → 0 < k → nextTransform^[k] c ≠ c) ∧
    nextTransform^[8] c = c := by
  fin_cases hc <;> decide

/-- Witness for C10 at the boot default transform `'c'`. -/
theorem transform_cycle_witness :
    'c' ∈ TRANSFORMS ∧ prevTransform (nextTransform 'c') = 'c' :=
  ⟨by decide, (transform_cycle 'c' (by decide)).1⟩

/-! ## C2: the ZoomWindow invariant under zoom and pan -/

/-- C2 counterexample: the state `offset = 60`, `duration = 40` with
`total_duration = 100` satisfies the invariant, but after `ZoomOut` the state
is `offset = 40`, `duration = 80` and `offset + duration = 120 > 100`:
the zoom-out branch clamps the offset only from below. -/
theorem zoomOut_breaks_invariant :
    ZoomInvariant ⟨60, 40⟩ 100 ∧ ¬ ZoomInvariant (zoomOut 100 ⟨60, 40⟩) 100 := by
  constructor
  · exact ⟨by norm_num, by norm_num⟩
  · simp only [ZoomInvariant, zoomOut, not_and, not_le]
    intro h
    norm_num

/-- C2 amended: from a state satisfying the invariant (with positive
duration), `ZoomIn` preserves the invariant whenever the total duration is at
least the 10-second zoom floor, `PanLeft` and `PanRight` always preserve it,
while `ZoomOut` only guarantees the weaker facts `0 ≤ offset` and
`duration ≤ total_duration` (its offset is not clamped from above). -/
theorem zoom_ops_invariant (T : ℚ) (z : ZoomState)
    (h0 : 0 ≤ z.offset) (hd : 0 < z.duration) (h1 : z.offset + z.duration ≤ T) :
    (10 ≤ T → ZoomInvariant (zoomIn T z) T) ∧
    ZoomInvariant (panLeft z) T ∧
    ZoomInvariant (panRight T z) T ∧
    (0 ≤ (zoomOut T z).offset ∧ (zoomOut T z).duration ≤ T) := by
  have hdT : z.duration ≤ T := by linarith
  have hoT : z.offset ≤ T - z.duration := by linarith
  refine ⟨fun h10 => ?_, ⟨?_, ?_⟩, ⟨?_, ?_⟩, ?_, ?_⟩
  · have hdle : max 10 (z.duration / 2) ≤ T := max_le h10 (by linarith)
    constructor
    · exact le_max_left 0 _
    · have : max 0 (min (z.offset + max 10 (z.duration / 2) / 2)
          (T - max 10 (z.duration / 2))) ≤ T - max 10 (z.duration / 2) :=
        max_le (by linarith) (min_le_right _ _)
      simpa [zoomIn, ZoomInvariant] using by linarith
  · exact le_max_left 0 _
  · have hq : 0 ≤ z.duration * (6666666667 / 10000000000 : ℚ) := by positivity
    have : max 0 (z.offset - z.duration * (6666666667 / 10000000000 : ℚ)) ≤
        T - z.duration := max_le (by linarith) (by linarith)
    simpa [panLeft, ZoomInvariant] using by linarith
  · exact le_max_left 0 _
  · have : max 0 (min (z.offset + z.duration * (6666666667 / 10000000000 : ℚ))
        (T - z.duration)) ≤ T - z.duration :=
      max_le (by linarith) (min_le_right _ _)
    simpa [panRight, ZoomInvariant] using by linarith
  · exact le_max_left 0 _
  · exact min_le_right _ _

/-- Witness for C2 amended at `total_duration = 100`, `offset = 0`,
`duration = 50`. -/
theorem zoom_ops_invariant_witness :
    ((0 : ℚ) ≤ (ZoomState.mk 0 50).offset ∧ (0 : ℚ) < (ZoomState.mk 0 50).duration ∧
      (ZoomState.mk 0 50).offset + (ZoomState.mk 0 50).duration ≤ 100) ∧
    ((10 ≤ (100 : ℚ) → ZoomInvariant (zoomIn 100 ⟨0, 50⟩) 100) ∧
     ZoomInvariant (panLeft ⟨0, 50⟩) 100 ∧
     ZoomInvariant (panRight 100 ⟨0, 50⟩) 100 ∧
     (0 ≤ (zoomOut 100 ⟨0, 50⟩).offset ∧ (zoomOut 100 ⟨0, 50⟩).duration ≤ 100)) :=
  ⟨⟨by norm_num, by norm_num, by norm_num⟩,
    zoom_ops_invariant 100 ⟨0, 50⟩ (by norm_num) (by norm_num) (by norm_num)⟩

/-! ## Recording file allocation (`toggleRecording`, .ino lines 1200-1240)

Within the current directory, recording file names are 4-digit strings with a
`.tsv` suffix.  The digit-wise carry increment of the loop body adds one to
the numeric value of any 4-digit name below `9999`, so file identifiers are
modelled as natural numbers; `existsF` models `SD.exists` for the candidate
path inside the recording directory.  The do-while loop re-runs as long as
the constructed name already exists; its non-termination when the name
`9999` is reached while `9999.tsv` exists is modelled by fuel exhaustion. -/

/-- Outcome of one iteration of the do-while loop body of `toggleRecording`:
whether the `Too many files` screen was drawn, and the file name afterwards
(unchanged in that case, incremented with carry otherwise). -/
structure AllocIter where
  reported : Bool
  name : ℕ
deriving DecidableEq, Repr

/-- One iteration of the file-name loop body (.ino lines 1215-1232). -/
def allocIter (cur : ℕ) : AllocIter :=
  if cur = 9999 then ⟨true, cur⟩ else ⟨false, cur + 1⟩

/-- The do-while loop: step the name, retry while the name exists, return the
first free name.  `none` models non-termination within the given fuel. -/
def allocFile (existsF : ℕ → Bool) : ℕ → ℕ → Option ℕ
  | 0, _ => none
  | fuel + 1, cur =>
    let next := (allocIter cur).name
    if existsF next then allocFile existsF fuel next else some next

/-- Run `n` recording sessions in one boot: each start allocates a file name
(starting the search from the previous name), and the allocated file is
created, so it exists for all later sessions. -/
def runSessions (fuel : ℕ) : (ℕ → Bool) → ℕ → ℕ → Option (List ℕ)
  | _, _, 0 => some []
  | ex, cur, n + 1 =>
    match allocFile ex fuel cur with
    | none => none
    | some r =>
      match runSessions fuel (fun k => ex k || (k == r)) r n with
      | none => none
      | some rest => some (r :: rest)

/-- Once the name is `9999` and `9999.tsv` exists, the do-while loop never
returns, whatever the fuel: the error branch leaves the name unchanged. -/
theorem allocFile_stuck_at_9999 (ex : ℕ → Bool) (h : ex 9999 = true) :
    ∀ fuel, allocFile ex fuel 9999 = none := by
  intro fuel
  induction fuel with
  | zero => rfl
  | succ n ih => simp [allocFile, allocIter, h, ih]

/-- Elementary facts about a successful allocation: the returned identifier
is free, at least the starting one, at most `9999` (when starting at most
there), and equals the starting one only in the stuck `9999` state. -/
theorem allocFile_some_spec (ex : ℕ → Bool) :
    ∀ fuel cur r, cur ≤ 9999 → allocFile ex fuel cur = some r →
      ex r = false ∧ cur ≤ r ∧ r ≤ 9999 ∧ (cur = r → cur = 9999) := by
  intro fuel
  induction fuel with
  | zero => intro cur r _ h; exact absurd h (by simp [allocFile])
  | succ n ih =>
    intro cur r hcur h
    by_cases h9 : cur = 9999
    · subst h9
      cases hex : ex 9999 with
      | true =>
        simp [allocFile, allocIter, hex] at h
        obtain ⟨h1, h2, h3, _⟩ := ih 9999 r (by omega) h
        exact ⟨h1, h2, h3, fun _ => rfl⟩
      | false =>
        simp [allocFile, allocIter, hex] at h
        subst h
        exact ⟨hex, le_refl _, le_refl _, fun _ => rfl⟩
    · cases hex : ex (cur + 1) with
      | true =>
        simp [allocFile, allocIter, h9, hex] at h
        obtain ⟨h1, h2, h3, _⟩ := ih (cur + 1) r (by omega) h
        exact ⟨h1, by omega, h3, fun he => by omega⟩
      | false =>
        simp [allocFile, allocIter, h9, hex] at h
        subst h
        exact ⟨hex, by omega, by omega, fun he => by omega⟩

/-- Induction core for C5: the sessions of one boot yield exactly `n`
identifiers forming a strictly increasing chain above the starting name,
none of which was already on the card. -/
theorem runSessions_sound (fuel : ℕ) :
    ∀ n (ex : ℕ → Bool) (cur : ℕ) (L : List ℕ), cur < 9999 →
      runSessions fuel ex cur n = some L →
      L.length = n ∧ List.Chain (· < ·) cur L ∧ ∀ r ∈ L, ex r = false ∧ r ≤ 9999 := by
  intro n
  induction n with
  | zero =>
    intro ex cur L _ h
    cases h
    exact ⟨rfl, List.Chain.nil, by simp⟩
  | succ n ih =>
    intro ex cur L hcur h
    cases halloc : allocFile ex fuel cur with
    | none => simp [runSessions, halloc] at h
    | some r =>
      obtain ⟨hfree, hle, hr9, heq⟩ := allocFile_some_spec ex fuel cur r (by omega) halloc
      have hlt : cur < r := lt_of_le_of_ne hle (fun he => by have := heq he; omega)
      cases hrest : runSessions fuel (fun k => ex k || (k == r)) r n with
      | none => simp [runSessions, halloc, hrest] at h
      | some rest =>
        simp only [runSessions, halloc, hrest, Option.some.injEq] at h
        subst h
        cases n with
        | zero =>
          cases hrest
          refine ⟨rfl, List.Chain.cons hlt List.Chain.nil, ?_⟩
          intro x hx
          rcases List.mem_singleton.mp hx with rfl
          exact ⟨hfree, hr9⟩
        | succ m =>
          have hr99 : r < 9999 := by
            rcases lt_or_eq_of_le hr9 with hh | hh
            · exact hh
            · exfalso
              subst hh
              have hstuck := allocFile_stuck_at_9999 (fun k => ex k || (k == 9999)) (by simp) fuel
              simp [runSessions, hstuck] at hrest
          obtain ⟨hlen, hchain, hmem⟩ := ih (fun k => ex k || (k == r)) r rest hr99 hrest
          refine ⟨by simp [hlen], List.Chain.cons hlt hchain, ?_⟩
          intro x hx
          rcases List.mem_cons.mp hx with rfl | hx
          · exact ⟨hfree, hr9⟩
          · obtain ⟨hx1, hx2⟩ := hmem x hx
            exact ⟨by simpa using (Bool.or_eq_false_iff.mp hx1).1, hx2⟩

/-- C5: starting and stopping a recording `n` times in one boot session
(without exhausting `9999`) yields `n` identifiers that strictly increase
from the starting name, are pairwise distinct, and never collide with a file
that existed when the session run began (the do-while loop re-increments
until the name is free). -/
theorem recording_ids_strictly_increasing (fuel n : ℕ) (ex : ℕ → Bool)
    (cur : ℕ) (L : List ℕ) (hcur : cur < 9999)
    (h : runSessions fuel ex cur n = some L) :
    L.length = n ∧ List.Chain (· < ·) cur L ∧ L.Pairwise (· < ·) ∧
      ∀ r ∈ L, ex r = false := by
  obtain ⟨hlen, hchain, hmem⟩ := runSessions_sound fuel n ex cur L hcur h
  exact ⟨hlen, hchain, (List.chain_iff_pairwise.mp hchain).of_cons,
    fun r hr => (hmem r hr).1⟩

/-- Witness for C5: three sessions on an empty card starting from `0000`
allocate `0001`, `0002`, `0003`. -/
theorem recording_ids_strictly_increasing_witness :
    (0 < 9999 ∧ runSessions 4 (fun _ => false) 0 3 = some [1, 2, 3]) ∧
    ([1, 2, 3].length = 3 ∧ List.Chain (· < ·) 0 [1, 2, 3] ∧
      ([1, 2, 3].Pairwise (· < ·)) ∧ ∀ r ∈ [1, 2, 3], (fun _ : ℕ => false) r = false) :=
  ⟨⟨by decide, by decide⟩,
    recording_ids_strictly_increasing 4 3 (fun _ => false) 0 [1, 2, 3] (by decide) (by decide)⟩

/-- C6: once the file identifier has reached `9999` (and `9999.tsv` exists),
any further allocation attempt in that directory fails permanently for the
rest of the boot session — no fuel makes the loop return an identifier, so
nothing is auto-recovered —, the loop body draws the too-many-files message
(the condition is surfaced to the operator), and the name is left at `9999`:
the counter never wraps around past `9999` to reuse earlier names. -/
theorem file_id_exhaustion_permanent (ex : ℕ → Bool) (fuel : ℕ)
    (h : ex 9999 = true) :
    allocFile ex fuel 9999 = none ∧
    (allocIter 9999).reported = true ∧ (allocIter 9999).name = 9999 :=
  ⟨allocFile_stuck_at_9999 ex h fuel, rfl, rfl⟩

/-- Witness for C6 with every name taken and fuel 5. -/
theorem file_id_exhaustion_permanent_witness :
    ((fun _ : ℕ => true) 9999 = true) ∧
    (allocFile (fun _ => true) 5 9999 = none ∧
      (allocIter 9999).reported = true ∧ (allocIter 9999).name = 9999) :=
  ⟨rfl, file_id_exhaustion_permanent (fun _ => true) 5 rfl⟩

/-! ## Directory allocation (`find_last_recording_name` .ino lines 1114-1143,
`toggleRecording` lines 1172-1198, `setup` lines 272-278)

Directory entries are modelled by their name (a list of character codes,
relative to the parent directory — the source strips the parent path from
`entry.name()`) and a directory flag.  `find_last_recording_name` keeps the
last entry seen, in listing order, that passes the validity test; for
directories the test is `length == 4 && isUpperCase(charAt(0))`, for files a
`.tsv`/`.TSV` suffix.  The carry loop of `toggleRecording` walks string
positions 4 down to 1 of `"/" + name` (`charAt` out of bounds yields the NUL
code 0, below the code 65 of `A`; 90 is the code of `Z`, 47 of `/`). -/

structure DirEntry where
  name : List ℕ
  isDir : Bool
deriving DecidableEq, Repr

/-- Validity test applied by the scan of `find_last_recording_name`. -/
def validEntry (show_directories : Bool) (e : DirEntry) : Bool :=
  if show_directories then
    e.isDir && e.name.length == 4 && (65 ≤ e.name.headD 0 && e.name.headD 0 ≤ 90)
  else
    !e.isDir && ([46, 116, 115, 118].isSuffixOf e.name || [46, 84, 83, 86].isSuffixOf e.name)

/-- The scan: keep the last valid name in storage-listing order (the source
overwrites `last_name` on every valid entry); `[]` when none is valid. -/
def find_last_recording_name (entries : List DirEntry) (show_directories : Bool) : List ℕ :=
  entries.foldl (fun last e => if validEntry show_directories e then e.name else last) []

def AAAA : List ℕ := [65, 65, 65, 65]

/-- The base-26 carry loop of `toggleRecording` (.ino lines 1181-1196) over
string positions `p+1` down to `1`: `Z` rolls to `A` and the carry moves
left, a character below `A` is the fatal `Invalid directory name` condition
(`none`), any other character is incremented and the loop stops. -/
def carryLoop : List ℕ → ℕ → Option (List ℕ)
  | s, 0 => some s
  | s, p + 1 =>
    let c := s.getD (p + 1) 0
    if c = 90 then carryLoop (s.set (p + 1) 65) p
    else if c < 65 then none
    else some (s.set (p + 1) (c + 1))

/-- Directory allocation of `toggleRecording` when `recording_directory` is
still empty: scan the root listing, prepend `/`, and increment.  (The
`length == 0` test of the source compares the string including the `/`
prefix, so it never fires.) -/
def allocateDirectory (entries : List DirEntry) : Option (List ℕ) :=
  let last := find_last_recording_name entries true
  let last_directory := 47 :: last
  if last_directory.length = 0 then some (47 :: AAAA)
  else carryLoop last_directory 4

/-- Boot-time special case of `setup`: when no root entry is named `AAAA`,
the directory `/AAAA` is created and preselected as `recording_directory`
(`SD.exists` is name-based, so any entry named `AAAA` suppresses this). -/
def setupCreatesAAAA (entries : List DirEntry) : Bool :=
  !(entries.any (fun e => e.name == AAAA))

/-- Directory used by the first recording of a boot: the one preselected by
`setup` if `/AAAA` was missing, otherwise the scan-and-increment result. -/
def directoryForFirstRecording (rootEntries : List DirEntry) : Option (List ℕ) :=
  if setupCreatesAAAA rootEntries then some (47 :: AAAA)
  else allocateDirectory rootEntries

/-- Numeric value of a 4-letter name as a base-26 counter over `A`..`Z`. -/
def dirVal (s : List ℕ) : ℕ :=
  s.foldl (fun a c => a * 26 + (c - 65)) 0

/-- C4 counterexample: with the same two valid directories `BBBB` and `AAAA`
on the card, the scan selects `AAAA` when the listing returns `BBBB` first
and `BBBB` when it returns `AAAA` first — the selection depends on the
listing order, and in the first listing it is not the lexicographically
greatest valid name. -/
theorem find_last_order_counterexample :
    find_last_recording_name
        [⟨[66, 66, 66, 66], true⟩, ⟨[65, 65, 65, 65], true⟩] true = [65, 65, 65, 65] ∧
    find_last_recording_name
        [⟨[65, 65, 65, 65], true⟩, ⟨[66, 66, 66, 66], true⟩] true = [66, 66, 66, 66] ∧
    validEntry true ⟨[66, 66, 66, 66], true⟩ = true ∧
    dirVal [65, 65, 65, 65] < dirVal [66, 66, 66, 66] := by
  decide

/-- Folded form of the scan: it returns the name of the last valid entry in
listing order (and the accumulator when none is valid). -/
theorem find_last_foldl (sd : Bool) :
    ∀ (entries : List DirEntry) (acc : List ℕ),
      entries.foldl (fun last e => if validEntry sd e then e.name else last) acc =
      ((entries.filter (validEntry sd)).map DirEntry.name).getLastD acc := by
  intro entries
  induction entries with
  | nil => intro acc; rfl
  | cons e rest ih =>
    intro acc
    by_cases hv : validEntry sd e = true
    · simp only [List.foldl_cons, List.filter_cons, hv, if_true, List.map_cons,
        List.getLastD_cons, ih]
    · simp only [List.foldl_cons, List.filter_cons, hv, if_false, ih,
        Bool.false_eq_true, ite_false]

/-- In a list sorted by the base-26 value, every element is bounded by the
last one. -/
theorem pairwise_le_getLastD :
    ∀ (l : List (List ℕ)) (d : List ℕ),
      l.Pairwise (fun a b => dirVal a ≤ dirVal b) →
      ∀ x ∈ l, dirVal x ≤ dirVal (l.getLastD d) := by
  intro l
  induction l with
  | nil => intro d _ x hx; cases hx
  | cons a t ih =>
    intro d hp x hx
    rcases List.pairwise_cons.mp hp with ⟨ha, ht⟩
    rw [List.getLastD_cons]
    rcases List.mem_cons.mp hx with rfl | hx
    · cases t with
      | nil => simp [List.getLastD]
      | cons b t2 =>
        rcases List.mem_cons.mp (List.getLastD_mem_cons (b :: t2) x) with he | hm
        · exact le_of_eq (by rw [he])
        · exact ha _ hm
    · exact ih a ht x hx

/-- Carry-increment of a sanitized 4-uppercase-letter name other than `ZZZZ`
adds exactly one to its base-26 value and stays within `A`..`Z`. -/
theorem carryLoop_increments (a b c d : ℕ)
    (ha1 : 65 ≤ a) (ha2 : a ≤ 90) (hb1 : 65 ≤ b) (hb2 : b ≤ 90)
    (hc1 : 65 ≤ c) (hc2 : c ≤ 90) (hd1 : 65 ≤ d) (hd2 : d ≤ 90)
    (hz : ¬(a = 90 ∧ b = 90 ∧ c = 90 ∧ d = 90)) :
    ∃ r, carryLoop (47 :: [a, b, c, d]) 4 = some (47 :: r) ∧
      dirVal r = dirVal [a, b, c, d] + 1 ∧ r.length = 4 ∧
      ∀ x ∈ r, 65 ≤ x ∧ x ≤ 90 := by
  by_cases hd : d = 90
  · by_cases hc : c = 90
    · by_cases hb : b = 90
      · have haa : a ≠ 90 := fun h => hz ⟨h, hb, hc, hd⟩
        subst hd hc hb
        refine ⟨[a + 1, 65, 65, 65], ?_, ?_, rfl, ?_⟩
        · simp [carryLoop, List.getD, haa, (show ¬ a < 65 by omega)]
        · simp only [dirVal, List.foldl_cons, List.foldl_nil]
          omega
        · intro x hx
          simp only [List.mem_cons, List.not_mem_nil, or_false] at hx
          rcases hx with rfl | rfl | rfl | rfl <;> omega
      · subst hd hc
        refine ⟨[a, b + 1, 65, 65], ?_, ?_, rfl, ?_⟩
        · simp [carryLoop, List.getD, hb, (show ¬ b < 65 by omega)]
        · simp only [dirVal, List.foldl_cons, List.foldl_nil]
          omega
        · intro x hx
          simp only [List.mem_cons, List.not_mem_nil, or_false] at hx
          rcases hx with rfl | rfl | rfl | rfl <;> omega
    · subst hd
      refine ⟨[a, b, c + 1, 65], ?_, ?_, rfl, ?_⟩
      · simp [carryLoop, List.getD, hc, (show ¬ c < 65 by omega)]
      · simp only [dirVal, List.foldl_cons, List.foldl_nil]
        omega
      · intro x hx
        simp only [List.mem_cons, List.not_mem_nil, or_false] at hx
        rcases hx with rfl | rfl | rfl | rfl <;> omega
  · refine ⟨[a, b, c, d + 1], ?_, ?_, rfl, ?_⟩
    · simp [carryLoop, List.getD, hd, (show ¬ d < 65 by omega)]
    · simp only [dirVal, List.foldl_cons, List.foldl_nil]
      omega
    · intro x hx
      simp only [List.mem_cons, List.not_mem_nil, or_false] at hx
      rcases hx with rfl | rfl | rfl | rfl <;> omega

/-- C4 amended: the first-recording directory allocation selects the LAST
valid 4-character name in storage-listing order, which is the
lexicographically greatest valid name only when the listing is sorted; with
no entry named `AAAA` present at boot (in particular when no valid name
exists at all) initialization preselects `/AAAA`; the selected name is
incremented as a base-26 counter over `A`-`Z` with carry (`Z` rolling to `A`
and carrying left, `ZZZZ` silently wrapping to `AAAA`); the reported fatal
condition occurs exactly when the carry scan meets a character below `A`
(never for an all-uppercase name). -/
theorem directory_allocation_amended (entries : List DirEntry) (a b c d : ℕ)
    (hr : 65 ≤ a ∧ a ≤ 90 ∧ 65 ≤ b ∧ b ≤ 90 ∧ 65 ≤ c ∧ c ≤ 90 ∧ 65 ≤ d ∧ d ≤ 90)
    (hz : ¬(a = 90 ∧ b = 90 ∧ c = 90 ∧ d = 90)) :
    (∀ sd, find_last_recording_name entries sd =
        ((entries.filter (validEntry sd)).map DirEntry.name).getLastD []) ∧
    (entries.Pairwise (fun e f => dirVal e.name ≤ dirVal f.name) →
      ∀ e ∈ entries, validEntry true e = true →
        dirVal e.name ≤ dirVal (find_last_recording_name entries true)) ∧
    ((∀ e ∈ entries, e.name ≠ AAAA) →
      directoryForFirstRecording entries = some (47 :: AAAA)) ∧
    (∃ r, carryLoop (47 :: [a, b, c, d]) 4 = some (47 :: r) ∧
      dirVal r = dirVal [a, b, c, d] + 1 ∧ r.length = 4 ∧
      ∀ x ∈ r, 65 ≤ x ∧ x ≤ 90) ∧
    carryLoop (47 :: [90, 90, 90, 90]) 4 = some (47 :: AAAA) ∧
    carryLoop (47 :: [65, 48, 90, 90]) 4 = none := by
  obtain ⟨ha1, ha2, hb1, hb2, hc1, hc2, hd1, hd2⟩ := hr
  refine ⟨fun sd => find_last_foldl sd entries [], ?_, ?_, ?_, by decide, by decide⟩
  · intro hp e he hv
    rw [show find_last_recording_name entries true = _ from find_last_foldl true entries []]
    apply pairwise_le_getLastD
    · exact List.pairwise_map.mpr (hp.filter _)
    · exact List.mem_map_of_mem DirEntry.name (List.mem_filter.mpr ⟨he, hv⟩)
  · intro hA
    have hany : entries.any (fun e => e.name == AAAA) = false := by
      rw [List.any_eq_false]
      intro e he2
      simpa using hA e he2
    simp [directoryForFirstRecording, setupCreatesAAAA, hany]
  · exact carryLoop_increments a b c d ha1 ha2 hb1 hb2 hc1 hc2 hd1 hd2 hz

/-- Witness for C4 amended: a one-directory card (`/BBBB`) and the name
`AAAB` to increment. -/
theorem directory_allocation_amended_witness :
    ((65 ≤ 65 ∧ (65 : ℕ) ≤ 90 ∧ 65 ≤ 65 ∧ (65 : ℕ) ≤ 90 ∧ 65 ≤ 65 ∧ (65 : ℕ) ≤ 90 ∧
        65 ≤ 66 ∧ (66 : ℕ) ≤ 90) ∧
      ¬((65 : ℕ) = 90 ∧ (65 : ℕ) = 90 ∧ (65 : ℕ) = 90 ∧ (66 : ℕ) = 90)) ∧
    ((∀ sd, find_last_recording_name [⟨[66, 66, 66, 66], true⟩] sd =
        ((([⟨[66, 66, 66, 66], true⟩] : List DirEntry).filter (validEntry sd)).map
          DirEntry.name).getLastD []) ∧
    (([⟨[66, 66, 66, 66], true⟩] : List DirEntry).Pairwise
        (fun e f => dirVal e.name ≤ dirVal f.name) →
      ∀ e ∈ ([⟨[66, 66, 66, 66], true⟩] : List DirEntry), validEntry true e = true →
        dirVal e.name ≤ dirVal (find_last_recording_name [⟨[66, 66, 66, 66], true⟩] true)) ∧
    ((∀ e ∈ ([⟨[66, 66, 66, 66], true⟩] : List DirEntry), e.name ≠ AAAA) →
      directoryForFirstRecording [⟨[66, 66, 66, 66], true⟩] = some (47 :: AAAA)) ∧
    (∃ r, carryLoop (47 :: [65, 65, 65, 66]) 4 = some (47 :: r) ∧
      dirVal r = dirVal [65, 65, 65, 66] + 1 ∧ r.length = 4 ∧
      ∀ x ∈ r, 65 ≤ x ∧ x ≤ 90) ∧
    carryLoop (47 :: [90, 90, 90, 90]) 4 = some (47 :: AAAA) ∧
    carryLoop (47 :: [65, 48, 90, 90]) 4 = none) :=
  ⟨⟨by decide, by decide⟩,
    directory_allocation_amended [⟨[66, 66, 66, 66], true⟩] 65 65 65 66
      (by decide) (by decide)⟩

/-! ## Playback loading (`showFile`, .ino lines 1355-1459)

A stored file is modelled by its parsed rows `(timestamp, value, threshold)`;
`parseFloat` returning `0.0` at end of file is modelled by the row list
running out.  The streaming loop (.ino lines 1410-1440) breaks on any zero
timestamp or when `input_point_counter` reaches `zoom_point_end`; a row is
kept when `input_point_counter ≥ zoom_point_start` (post-increment) and the
eligible-row counter `point_counter` is a multiple of `decimation`.  Counters
are C `long`s, far from overflow here; `LONG_MAX = 2147483647`. -/

structure Row where
  ts : ℚ
  value : ℚ
  thr : ℚ
deriving DecidableEq, Repr

structure LoadState where
  inputCount : ℤ
  pointCount : ℕ
  kept : List Row
  firstTs : ℚ
  lastTs : ℚ
deriving DecidableEq, Repr

/-- The streaming read loop of `showFile`.  At end of file `parseFloat`
yields a zero timestamp, so on an empty remainder only the
`input_point_counter == 0` assignment of `first_timestamp` still fires. -/
def loadRun (zps zpe : ℤ) (dec : ℕ) : List Row → LoadState → LoadState
  | [], st => { st with firstTs := if st.inputCount = 0 then 0 else st.firstTs }
  | r :: rest, st =>
    let st1 := { st with firstTs := if st.inputCount = 0 then r.ts else st.firstTs }
    if r.ts = 0 ∨ st1.inputCount ≥ zpe then st1
    else
      let st2 := { st1 with lastTs := r.ts }
      let st3 :=
        if st2.inputCount ≥ zps then
          if st2.pointCount % dec = 0 then
            { st2 with pointCount := st2.pointCount + 1, kept := st2.kept ++ [r] }
          else { st2 with pointCount := st2.pointCount + 1 }
        else st2
      loadRun zps zpe dec rest { st3 with inputCount := st3.inputCount + 1 }

def initLoadState : LoadState := ⟨0, 0, [], 0, 0⟩

/-- First-load decimation estimate (.ino lines 1385-1388): for a file larger
than 10 kB, `max(2, long((file_size / 20.0) / 320.0))`, i.e. `max 2
(file_size / 6400)` (the double divisions are exact in this range up to the
final truncation). -/
def firstLoadDecimation (fileSize : ℕ) : ℕ :=
  if fileSize > 10000 then max 2 (fileSize / 6400) else 1

/-- First load of a newly opened file: full index range
(`zoom_point_end = LONG_MAX`), byte-size decimation estimate; `none` models
the `No data loaded` exit (which resets the zoom state and returns to the
file browser). -/
def showFileFirstLoad (rows : List Row) (fileSize : ℕ) : Option LoadState :=
  let st := loadRun 0 2147483647 (firstLoadDecimation fileSize) rows initLoadState
  if st.pointCount = 0 then none else some st

/-- The C cast `long(x)` (truncation toward zero) on an exact rational. -/
def cTrunc (x : ℚ) : ℤ := if 0 ≤ x then ⌊x⌋ else -⌊-x⌋

/-- Reload index range (.ino lines 1369-1373): time fractions of the zoom
window, linearly interpolated over the known point count. -/
def reloadIndices (offset duration tsStart tsEnd : ℚ) (pointCount : ℤ) : ℤ × ℤ :=
  let T := tsEnd - tsStart
  let zfs := offset / T
  let zfe := (offset + duration) / T
  (cTrunc (zfs * pointCount), cTrunc (zfe * pointCount + 999999 / 1000000))

/-- Decimation choice on reload (.ino lines 1375-1379): integer division of
the addressed point count by the 400-point ceiling when it exceeds it. -/
def chooseDecimation (zoomPointCount : ℤ) : ℤ :=
  if zoomPointCount > 400 then zoomPointCount.tdiv 400 else 1

/-- Reload of an already-viewed file for the current zoom window: compute the
index range and decimation, then stream.  Returns the final load state and
the decimation used. -/
def showFileReload (offset duration tsStart tsEnd : ℚ) (pointCount : ℤ)
    (rows : List Row) : LoadState × ℤ :=
  let zz := reloadIndices offset duration tsStart tsEnd pointCount
  let dec := chooseDecimation (zz.2 - zz.1)
  (loadRun zz.1 zz.2 dec.toNat rows initLoadState, dec)

/-- Behaviour of the read loop on a tail of rows with nonzero timestamps,
no decimation and zero range start, once at least one row has been consumed:
every row is kept. -/
theorem loadRun_all (zpe : ℤ) :
    ∀ (rows : List Row) (st : LoadState),
      (∀ r ∈ rows, r.ts ≠ 0) → 1 ≤ st.inputCount →
      st.inputCount + rows.length ≤ zpe →
      loadRun 0 zpe 1 rows st =
        { inputCount := st.inputCount + rows.length,
          pointCount := st.pointCount + rows.length,
          kept := st.kept ++ rows,
          firstTs := st.firstTs,
          lastTs := (rows.map Row.ts).getLastD st.lastTs } := by
  intro rows
  induction rows with
  | nil =>
    intro st _ h1 _
    simp [loadRun, show st.inputCount ≠ 0 by omega]
  | cons r rest ih =>
    intro st hts h1 hlen
    have hr0 : r.ts ≠ 0 := hts r (List.mem_cons_self r rest)
    have hic : ¬ st.inputCount ≥ zpe := by
      simp only [List.length_cons] at hlen
      omega
    have hne : st.inputCount ≠ 0 := by omega
    have hstep : loadRun 0 zpe 1 (r :: rest) st =
        loadRun 0 zpe 1 rest
          { inputCount := st.inputCount + 1, pointCount := st.pointCount + 1,
            kept := st.kept ++ [r], firstTs := st.firstTs, lastTs := r.ts } := by
      conv_lhs => rw [loadRun]
      simp [hne, hr0, hic, Nat.mod_one, show st.inputCount ≥ 0 by omega]
    rw [hstep, ih _ (fun x hx => hts x (List.mem_cons_of_mem r hx))
      (by show (1:ℤ) ≤ st.inputCount + 1; omega)
      (by show st.inputCount + 1 + (rest.length : ℤ) ≤ zpe
          simp only [List.length_cons] at hlen
          push_cast at hlen ⊢
          omega)]
    simp only [LoadState.mk.injEq, List.map_cons, List.getLastD_cons, List.length_cons,
      List.append_assoc, List.singleton_append, and_true, true_and]
    constructor
    · push_cast
      ring
    · omega

/-- Complete undecimated load of a file whose timestamps are all nonzero:
every row is kept, and the first and last timestamps are recorded. -/
theorem loadRun_complete (zpe : ℤ) (rows : List Row)
    (hts : ∀ r ∈ rows, r.ts ≠ 0) (hlen : (rows.length : ℤ) ≤ zpe) :
    loadRun 0 zpe 1 rows initLoadState =
      { inputCount := rows.length, pointCount := rows.length, kept := rows,
        firstTs := (rows.map Row.ts).headD 0,
        lastTs := (rows.map Row.ts).getLastD 0 } := by
  cases rows with
  | nil => rfl
  | cons r rest =>
    have hr0 : r.ts ≠ 0 := hts r (List.mem_cons_self r rest)
    have hz : ¬ (0 : ℤ) ≥ zpe := by
      simp only [List.length_cons] at hlen
      push_cast at hlen
      omega
    have hstep : loadRun 0 zpe 1 (r :: rest) initLoadState =
        loadRun 0 zpe 1 rest
          { inputCount := 1, pointCount := 1, kept := [r],
            firstTs := r.ts, lastTs := r.ts } := by
      conv_lhs => rw [loadRun]
      simp [initLoadState, hr0, hz, Nat.mod_one]
    rw [hstep, loadRun_all zpe rest _
      (fun x hx => hts x (List.mem_cons_of_mem r hx)) (by norm_num)
      (by show (1:ℤ) + (rest.length:ℤ) ≤ zpe
          simp only [List.length_cons] at hlen
          push_cast at hlen
          omega)]
    simp only [List.singleton_append, List.map_cons, List.getLastD_cons,
      List.headD_cons, List.length_cons, LoadState.mk.injEq, and_true, true_and]
    constructor
    · push_cast
      ring
    · omega

/-- C1 counterexample: writing exactly the rows `(0.00, 10.00, 50.0)`,
`(1.00, 12.50, 50.0)`, `(2.00, 9.00, 50.0)` and opening the file for
playback at full zoom (first load) yields NO rows: the break condition
`timestamp == 0.0` has no exemption for the initial row, so the zero
timestamp of the very first triple already ends the stream and the loader
reports `No data loaded` (`none`) instead of the three rows. -/
theorem roundtrip_zero_start :
    showFileFirstLoad [⟨0, 10, 50⟩, ⟨1, 25/2, 50⟩, ⟨2, 9, 50⟩] 45 = none ∧
    (loadRun 0 2147483647 1 [⟨0, 10, 50⟩, ⟨1, 25/2, 50⟩, ⟨2, 9, 50⟩]
        initLoadState).kept = [] ∧
    (loadRun 0 2147483647 1 [⟨0, 10, 50⟩, ⟨1, 25/2, 50⟩, ⟨2, 9, 50⟩]
        initLoadState).pointCount = 0 := by
  refine ⟨rfl, rfl, rfl⟩

/-- C1 amended: ANY zero timestamp — the initial one included — ends the
stream, so the given three rows load as no data; for a recording whose rows
all carry nonzero timestamps (and whose size stays at or below the 10 kB
first-load threshold) the round trip holds: playback at full zoom yields
exactly the written rows with no decimation, the time origin is the first
row's timestamp, the end the last row's, and the total duration their
difference (`lastTs - firstTs`). -/
theorem roundtrip_amended (rows : List Row) (fileSize : ℕ)
    (hne : rows ≠ []) (hts : ∀ r ∈ rows, r.ts ≠ 0)
    (hlen : rows.length ≤ 2147483647) (hfs : fileSize ≤ 10000) :
    showFileFirstLoad rows fileSize =
      some { inputCount := rows.length, pointCount := rows.length, kept := rows,
             firstTs := (rows.map Row.ts).headD 0,
             lastTs := (rows.map Row.ts).getLastD 0 } ∧
    firstLoadDecimation fileSize = 1 := by
  have hdec : firstLoadDecimation fileSize = 1 := by
    simp only [firstLoadDecimation, if_neg (by omega : ¬ fileSize > 10000)]
  refine ⟨?_, hdec⟩
  unfold showFileFirstLoad
  rw [hdec, loadRun_complete 2147483647 rows hts (by exact_mod_cast hlen)]
  rw [if_neg (fun h => hne (List.length_eq_zero.mp h))]

/-- Witness for C1 amended: the claim's three rows shifted to start at
timestamp 1 round-trip exactly, with total duration still 2.00. -/
theorem roundtrip_amended_witness :
    (([⟨1, 10, 50⟩, ⟨2, 25/2, 50⟩, ⟨3, 9, 50⟩] : List Row) ≠ [] ∧
     (∀ r ∈ ([⟨1, 10, 50⟩, ⟨2, 25/2, 50⟩, ⟨3, 9, 50⟩] : List Row), r.ts ≠ 0) ∧
     ([⟨1, 10, 50⟩, ⟨2, 25/2, 50⟩, ⟨3, 9, 50⟩] : List Row).length ≤ 2147483647 ∧
     45 ≤ 10000) ∧
    (showFileFirstLoad [⟨1, 10, 50⟩, ⟨2, 25/2, 50⟩, ⟨3, 9, 50⟩] 45 =
      some { inputCount := ([⟨1, 10, 50⟩, ⟨2, 25/2, 50⟩, ⟨3, 9, 50⟩] : List Row).length,
             pointCount := ([⟨1, 10, 50⟩, ⟨2, 25/2, 50⟩, ⟨3, 9, 50⟩] : List Row).length,
             kept := [⟨1, 10, 50⟩, ⟨2, 25/2, 50⟩, ⟨3, 9, 50⟩],
             firstTs := (([⟨1, 10, 50⟩, ⟨2, 25/2, 50⟩, ⟨3, 9, 50⟩] : List Row).map
               Row.ts).headD 0,
             lastTs := (([⟨1, 10, 50⟩, ⟨2, 25/2, 50⟩, ⟨3, 9, 50⟩] : List Row).map
               Row.ts).getLastD 0 } ∧
     firstLoadDecimation 45 = 1) :=
  ⟨⟨by decide, by decide, by decide, by decide⟩,
    roundtrip_amended [⟨1, 10, 50⟩, ⟨2, 25/2, 50⟩, ⟨3, 9, 50⟩] 45
      (by decide) (by decide) (by decide) (by decide)⟩

/-- C3 counterexample: an addressed range of 401 points exceeds the 400-point
ceiling, yet the stride `401 / 400 = 1` keeps every point: reloading a
401-row file fully zoomed out emits 401 > 400 points to the rendering
buffer.  (The source comments this choice as using `just over` 400.) -/
theorem reload_401_counterexample :
    chooseDecimation 401 = 1 ∧
    ((showFileReload 0 400 1 401 401
        ((List.range 401).map (fun k : ℕ => Row.mk ((k : ℚ) + 1) 5 50))).1).kept.length
      = 401 := by
  constructor
  · decide
  · have hidx : reloadIndices 0 400 1 401 401 = (0, 401) := by
      simp only [reloadIndices, cTrunc]
      norm_num [Int.floor_eq_iff]
    have hts : ∀ r ∈ (List.range 401).map (fun k : ℕ => Row.mk ((k : ℚ) + 1) 5 50),
        r.ts ≠ 0 := by
      intro r hr
      simp only [List.mem_map, List.mem_range] at hr
      obtain ⟨k, _, rfl⟩ := hr
      show (k : ℚ) + 1 ≠ 0
      positivity
    have hlen : ((((List.range 401).map
        (fun k : ℕ => Row.mk ((k : ℚ) + 1) 5 50))).length : ℤ) ≤ 401 := by
      simp
    unfold showFileReload
    rw [hidx]
    simp only
    rw [show chooseDecimation (401 - 0) = 1 by decide]
    rw [show ((1 : ℤ)).toNat = 1 by decide]
    rw [loadRun_complete 401 _ hts hlen]
    simp

/-- State invariant of the read loop used for the decimation bound: the
eligible-row counter never exceeds the addressed index range, and the number
of kept rows is the eligible count divided by the stride, rounded up. -/
def LoadInv (zps zpe : ℤ) (dec : ℕ) (st : LoadState) : Prop :=
  (st.pointCount : ℤ) ≤ max 0 (min st.inputCount zpe - zps) ∧
  st.pointCount ≤ st.kept.length * dec ∧
  st.kept.length * dec < st.pointCount + dec

/-- Counting step when a row is kept (`point_counter` a multiple of the
stride): the ceiling-division relation is maintained. -/
theorem kept_step_bounds (dec pc kl : ℕ) (hdec : 1 ≤ dec)
    (h2 : pc ≤ kl * dec) (h3 : kl * dec < pc + dec) (hmod : pc % dec = 0) :
    pc + 1 ≤ (kl + 1) * dec ∧ (kl + 1) * dec < pc + 1 + dec := by
  obtain ⟨q, hq⟩ := Nat.dvd_of_mod_eq_zero hmod
  subst hq
  have h4 : dec * q ≤ dec * kl := by
    calc dec * q ≤ kl * dec := h2
    _ = dec * kl := Nat.mul_comm kl dec
  have h5 : dec * kl < dec * (q + 1) := by
    calc dec * kl = kl * dec := Nat.mul_comm dec kl
    _ < dec * q + dec := h3
    _ = dec * (q + 1) := by ring
  have hklq : kl = q := by
    have hle1 := Nat.le_of_mul_le_mul_left h4 (by omega)
    have hlt1 := Nat.lt_of_mul_lt_mul_left h5
    omega
  subst hklq
  constructor
  · calc dec * kl + 1 ≤ dec * kl + dec := Nat.add_le_add_left hdec _
    _ = (kl + 1) * dec := by ring
  · calc (kl + 1) * dec = dec * kl + dec := by ring
    _ < dec * kl + (1 + dec) := Nat.add_lt_add_left (by omega) _
    _ = dec * kl + 1 + dec := by ring

/-- Counting step when a row is skipped by decimation. -/
theorem nonkept_step_bounds (dec pc kl : ℕ)
    (h2 : pc ≤ kl * dec) (h3 : kl * dec < pc + dec) (hmod : pc % dec ≠ 0) :
    pc + 1 ≤ kl * dec ∧ kl * dec < pc + 1 + dec := by
  have hne : pc ≠ kl * dec := by
    intro he
    exact hmod (by rw [he, Nat.mul_mod_left])
  constructor
  · omega
  · omega

/-- The read loop preserves `LoadInv`. -/
theorem loadRun_preserves_inv (zps zpe : ℤ) (dec : ℕ) (hdec : 1 ≤ dec) :
    ∀ (rows : List Row) (st : LoadState), LoadInv zps zpe dec st →
      LoadInv zps zpe dec (loadRun zps zpe dec rows st) := by
  intro rows
  induction rows with
  | nil =>
    intro st h
    simp only [loadRun]
    exact h
  | cons r rest ih =>
    intro st h
    obtain ⟨h1, h2, h3⟩ := h
    rw [loadRun]
    by_cases hbreak : r.ts = 0 ∨ st.inputCount ≥ zpe
    · rw [if_pos hbreak]
      exact ⟨h1, h2, h3⟩
    · rw [if_neg hbreak]
      dsimp only
      push_neg at hbreak
      obtain ⟨hr0, hlt⟩ := hbreak
      by_cases helig : st.inputCount ≥ zps
      · rw [if_pos helig]
        by_cases hmod : st.pointCount % dec = 0
        · rw [if_pos hmod]
          apply ih
          obtain ⟨hb1, hb2⟩ := kept_step_bounds dec st.pointCount st.kept.length hdec h2 h3 hmod
          refine ⟨?_, ?_, ?_⟩
          · simp only [List.length_append, List.length_cons, List.length_nil]
            push_cast
            omega
          · simpa [List.length_append] using hb1
          · simpa [List.length_append] using hb2
        · rw [if_neg hmod]
          apply ih
          obtain ⟨hb1, hb2⟩ := nonkept_step_bounds dec st.pointCount st.kept.length h2 h3 hmod
          refine ⟨?_, ?_, ?_⟩
          · push_cast
            omega
          · exact hb1
          · exact hb2
      · rw [if_neg helig]
        apply ih
        refine ⟨?_, h2, h3⟩
        push_cast
        omega

/-- Core bound: whatever the file contents, a reload over an index range
`[zps, zpe)` with the stride chosen by the source emits fewer than twice the
400-point ceiling: at most `799` rows are kept. -/
theorem reload_kept_bound (rows : List Row) (zps zpe : ℤ) (hle : zps ≤ zpe) :
    (loadRun zps zpe (chooseDecimation (zpe - zps)).toNat rows
      initLoadState).kept.length ≤ 799 := by
  have hdec1 : 1 ≤ (chooseDecimation (zpe - zps)).toNat := by
    simp only [chooseDecimation]
    split_ifs with hgt
    · have h1 : (1 : ℤ) ≤ (zpe - zps).tdiv 400 := by
        rw [Int.tdiv_eq_ediv (by omega) (by norm_num)]
        omega
      omega
    · decide
  have hinv0 : LoadInv zps zpe (chooseDecimation (zpe - zps)).toNat initLoadState := by
    refine ⟨by simp [initLoadState], by simp [initLoadState], ?_⟩
    simp only [initLoadState, List.length_nil, Nat.zero_mul, Nat.zero_add]
    omega
  obtain ⟨f1, f2, f3⟩ := loadRun_preserves_inv zps zpe _ hdec1 rows initLoadState hinv0
  set stF := loadRun zps zpe (chooseDecimation (zpe - zps)).toNat rows initLoadState
  set decN := (chooseDecimation (zpe - zps)).toNat with hdecN
  have hpc : (stF.pointCount : ℤ) ≤ zpe - zps := by
    have : max 0 (min stF.inputCount zpe - zps) ≤ zpe - zps := by omega
    omega
  by_cases hgt : zpe - zps > 400
  · have hdval : decN = ((zpe - zps) / 400).toNat := by
      rw [hdecN]
      simp only [chooseDecimation, if_pos hgt]
      rw [Int.tdiv_eq_ediv (by omega) (by norm_num)]
    by_contra hcon
    push_neg at hcon
    have h800 : 800 ≤ stF.kept.length := hcon
    have hmul : 800 * decN ≤ stF.kept.length * decN := Nat.mul_le_mul_right decN h800
    omega
  · have hdval : decN = 1 := by
      rw [hdecN]
      simp only [chooseDecimation, if_neg hgt]
      decide
    rw [hdval] at f3
    omega

/-- C3 amended: for every reload of a stored series (any zoom window with
nonnegative offset and duration, any nonnegative point count), the number of
points emitted to the rendering buffer is below twice the 400-point ceiling:
at most 799.  It can exceed 400 itself (401 points at range 401), because the
stride is the range divided by 400 rounded DOWN, keeping `just over` 400
points as the source comment says, not at most 400. -/
theorem reload_emitted_bound (offset duration tsStart tsEnd : ℚ) (N : ℤ)
    (rows : List Row)
    (hoff : 0 ≤ offset) (hdur : 0 ≤ duration) (hT : tsStart < tsEnd) (hN : 0 ≤ N) :
    ((showFileReload offset duration tsStart tsEnd N rows).1).kept.length ≤ 799 := by
  have hTpos : 0 < tsEnd - tsStart := by linarith
  have h0 : 0 ≤ offset / (tsEnd - tsStart) * N :=
    mul_nonneg (div_nonneg hoff hTpos.le) (by exact_mod_cast hN)
  have hmono : offset / (tsEnd - tsStart) * N ≤
      (offset + duration) / (tsEnd - tsStart) * N + 999999 / 1000000 := by
    have hdiv : offset / (tsEnd - tsStart) ≤ (offset + duration) / (tsEnd - tsStart) := by
      gcongr
      linarith
    have hmul : offset / (tsEnd - tsStart) * N ≤
        (offset + duration) / (tsEnd - tsStart) * N :=
      mul_le_mul_of_nonneg_right hdiv (by exact_mod_cast hN)
    linarith [show (0 : ℚ) ≤ 999999 / 1000000 by norm_num]
  have hct : cTrunc (offset / (tsEnd - tsStart) * N) ≤
      cTrunc ((offset + duration) / (tsEnd - tsStart) * N + 999999 / 1000000) := by
    rw [cTrunc, if_pos h0, cTrunc, if_pos (le_trans h0 hmono)]
    exact Int.floor_le_floor hmono
  exact reload_kept_bound rows _ _ hct

/-- Witness for C3 amended at a concrete zoom window. -/
theorem reload_emitted_bound_witness :
    ((0 : ℚ) ≤ 0 ∧ (0 : ℚ) ≤ 10 ∧ (0 : ℚ) < 10 ∧ (0 : ℤ) ≤ 5) ∧
    ((showFileReload 0 10 0 10 5 []).1).kept.length ≤ 799 :=
  ⟨⟨by norm_num, by norm_num, by norm_num, by norm_num⟩,
    reload_emitted_bound 0 10 0 10 5 [] (by norm_num) (by norm_num)
      (by norm_num) (by norm_num)⟩

/-! ## Adaptive trimmed averager (`runLiveMode`, .ino lines 389-470)

The fully populated averaging slice is modelled as the list `w` of raw
samples in buffer order, with `averaging_length = w.length`.  The source
initializes the min-scan with `min_selected = 2 >> 17`, which evaluates to
`0` (a right shift, not a power), so for nonnegative samples the computed
`min_selected` is `min 0 (true minimum) = 0` rather than the true minimum;
the max-scan starts from `-1` and does find the true maximum.  The final
summation loop relaxes a bound by one unit after each exclusion so that only
one instance of a repeated extreme is dropped. -/

def MIN_SENTINEL : ℤ := ((2 >>> 17 : ℕ) : ℤ)

/-- Second counting loop of the inner trimming pass (and recount): number of
slice elements within the closed bounds. -/
def countIn (w : List ℤ) (lo hi : ℤ) : ℕ :=
  w.countP (fun s => decide (lo ≤ s) && decide (s ≤ hi))

/-- The final summation loop (.ino lines 455-469): an element below the
lower bound is excluded and the bound relaxed one unit down; above the upper
bound, excluded and the bound relaxed one unit up; otherwise it contributes
to the running sum and count. -/
def sumLoop : List ℤ → ℤ → ℤ → ℤ × ℕ
  | [], _, _ => (0, 0)
  | s :: rest, minS, maxS =>
    if s < minS then sumLoop rest (minS - 1) maxS
    else if s > maxS then sumLoop rest minS (maxS + 1)
    else
      let p := sumLoop rest minS maxS
      (p.1 + s, p.2 + 1)

/-- First trimming stage for `averaging_length ≥ 3` (.ino lines 401-416):
scan min and max (the min scan starting from `2 >> 17 = 0`), narrow both by
one unit, and drop the lower constraint if the two cross. -/
def selectedBounds (w : List ℤ) : ℤ × ℤ :=
  let minS0 := w.foldl min MIN_SENTINEL
  let maxS0 := w.foldl max (-1)
  let minS1 := minS0 + 1
  let maxS1 := maxS0 - 1
  (if minS1 > maxS1 then -1 else minS1, maxS1)

/-- Second trimming pass for `averaging_length ≥ 16` (.ino lines 418-450):
min/max and count of the elements within the current bounds; if at least 13
are within, narrow those inner bounds by one unit and recount; adopt them if
the recount is at least 9 and they are non-degenerate. -/
def innerPass (w : List ℤ) (minS maxS : ℤ) : ℤ × ℤ :=
  let acc := w.foldl
    (fun acc s =>
      if minS ≤ s ∧ s ≤ maxS then (min acc.1 s, max acc.2.1 s, acc.2.2 + 1) else acc)
    (maxS, minS, (0 : ℕ))
  if 13 ≤ acc.2.2 then
    let iMin := acc.1 + 1
    let iMax := acc.2.1 - 1
    if 9 ≤ countIn w iMin iMax ∧ iMin < iMax then (iMin, iMax) else (minS, maxS)
  else (minS, maxS)

/-- The bounds used by the final summation loop: the declared `(-1, 32767)`
for `averaging_length < 3`, otherwise the trimmed (and possibly
inner-trimmed) bounds. -/
def finalBounds (w : List ℤ) : ℤ × ℤ :=
  if w.length < 3 then (-1, 32767)
  else
    let mm := selectedBounds w
    if 16 ≤ w.length then innerPass w mm.1 mm.2 else mm

/-- Number of samples contributing to the average (`averaged_count`). -/
def averagedCount (w : List ℤ) : ℕ :=
  (sumLoop w (finalBounds w).1 (finalBounds w).2).2

/-- The averager's output: `raw_sum / double(averaged_count)`. -/
def trimmedAverage (w : List ℤ) : ℚ :=
  ((sumLoop w (finalBounds w).1 (finalBounds w).2).1 : ℚ) / (averagedCount w : ℚ)

/-- Value predicted by the specification for `window_length` 3-4, following
its words: the mean of the two middle-ranked values, i.e. the median after
excluding one occurrence of the minimum and one of the maximum — computed as
`(sum - min - max) / (length - 2)`. -/
def specTrimmedMean34 (w : List ℤ) : ℚ :=
  ((w.sum - w.foldl min (w.headD 0) - w.foldl max (w.headD 0) : ℤ) : ℚ) /
    ((w.length - 2 : ℕ) : ℚ)

/-- C7: evaluation at the failing input.  For the window `[10, 20, 30]`
(`window_length = 3`) the claim — and the source's own comment `For
averaging_length 3 and 4 this means that the median will be used` — demand
the median `20`, but the code outputs `15`: the sentinel `2 >> 17`
evaluates to `0`, so `min_selected` becomes `min(0, 10) = 0` instead of the
window minimum, the lower exclusion never engages for a window without
zeros, and only the maximum `30` is excluded, giving `(10 + 20) / 2`. -/
theorem averager_median_bug :
    trimmedAverage [10, 20, 30] = 15 ∧
    specTrimmedMean34 [10, 20, 30] = 20 ∧
    trimmedAverage [10, 20, 30] ≠ specTrimmedMean34 [10, 20, 30] := by
  have h1 : finalBounds [10, 20, 30] = (1, 29) := by decide
  have h2 : sumLoop [10, 20, 30] 1 29 = (30, 2) := by decide
  have hcode : trimmedAverage [10, 20, 30] = 15 := by
    rw [trimmedAverage, averagedCount, h1, h2]
    norm_num
  have hspec : specTrimmedMean34 [10, 20, 30] = 20 := by
    have h3 : (List.sum [10, 20, 30] - List.foldl min (List.headD [10, 20, 30] 0) [10, 20, 30]
        - List.foldl max (List.headD [10, 20, 30] 0) [10, 20, 30] : ℤ) = 20 := by decide
    rw [specTrimmedMean34, h3]
    norm_num
  refine ⟨hcode, hspec, ?_⟩
  rw [hcode, hspec]
  norm_num

/-- Accounting bound for the summation loop: each exclusion relaxes a bound
by one unit, and for samples within `[lo, hi]` the lower bound can fall at
most `minS - lo` times and the upper rise at most `hi - maxS` times, so at
least `length - (minS - lo)⁺ - (hi - maxS)⁺` samples are counted. -/
theorem sumLoop_count_accounting (lo hi : ℤ) :
    ∀ (w : List ℤ) (minS maxS : ℤ), (∀ s ∈ w, lo ≤ s ∧ s ≤ hi) →
      (w.length : ℤ) - max 0 (minS - lo) - max 0 (hi - maxS) ≤ ((sumLoop w minS maxS).2 : ℤ) := by
  intro w
  induction w with
  | nil =>
    intro minS maxS _
    simp only [sumLoop, List.length_nil]
    omega
  | cons s rest ih =>
    intro minS maxS hmem
    obtain ⟨hlo, hhi⟩ := hmem s (List.mem_cons_self s rest)
    have hrest : ∀ x ∈ rest, lo ≤ x ∧ x ≤ hi := fun x hx => hmem x (List.mem_cons_of_mem s hx)
    rw [sumLoop]
    by_cases hlt : s < minS
    · rw [if_pos hlt]
      have := ih (minS - 1) maxS hrest
      simp only [List.length_cons]
      push_cast
      omega
    · rw [if_neg hlt]
      by_cases hgt : s > maxS
      · rw [if_pos hgt]
        have := ih minS (maxS + 1) hrest
        simp only [List.length_cons]
        push_cast
        omega
      · rw [if_neg hgt]
        have := ih minS maxS hrest
        simp only [List.length_cons]
        push_cast
        omega

/-- Wider bounds include at least as many elements. -/
theorem countIn_mono (w : List ℤ) (lo lo2 hi hi2 : ℤ) (h1 : lo2 ≤ lo) (h2 : hi ≤ hi2) :
    countIn w lo hi ≤ countIn w lo2 hi2 := by
  apply List.countP_mono_left
  intro x _ hx
  simp only [Bool.and_eq_true, decide_eq_true_eq] at hx ⊢
  omega

/-- The summation loop counts at least every element within its starting
bounds, since exclusions only ever widen the bounds. -/
theorem countIn_le_sumLoop_count :
    ∀ (w : List ℤ) (minS maxS : ℤ), countIn w minS maxS ≤ (sumLoop w minS maxS).2 := by
  intro w
  induction w with
  | nil => intro minS maxS; simp [countIn, sumLoop]
  | cons s rest ih =>
    intro minS maxS
    rw [sumLoop]
    by_cases hlt : s < minS
    · rw [if_pos hlt]
      have hnot : ¬ (decide (minS ≤ s) && decide (s ≤ maxS)) = true := by
        simp only [Bool.and_eq_true, decide_eq_true_eq]
        omega
      calc countIn (s :: rest) minS maxS = countIn rest minS maxS := by
              simp [countIn, List.countP_cons, hnot]
        _ ≤ countIn rest (minS - 1) maxS :=
              countIn_mono rest minS (minS - 1) maxS maxS (by omega) (by omega)
        _ ≤ _ := ih (minS - 1) maxS
    · rw [if_neg hlt]
      by_cases hgt : s > maxS
      · rw [if_pos hgt]
        have hnot : ¬ (decide (minS ≤ s) && decide (s ≤ maxS)) = true := by
          simp only [Bool.and_eq_true, decide_eq_true_eq]
          omega
        calc countIn (s :: rest) minS maxS = countIn rest minS maxS := by
                simp [countIn, List.countP_cons, hnot]
          _ ≤ countIn rest minS (maxS + 1) :=
                countIn_mono rest minS minS maxS (maxS + 1) (by omega) (by omega)
          _ ≤ _ := ih minS (maxS + 1)
      · rw [if_neg hgt]
        have hstep : countIn (s :: rest) minS maxS ≤ countIn rest minS maxS + 1 := by
          simp only [countIn, List.countP_cons]
          split_ifs <;> omega
        have h2 := ih minS maxS
        simp only [] at hstep h2 ⊢
        omega

/-- Folding `min` from a value at most every element leaves it unchanged
(this is how the `2 >> 17 = 0` sentinel absorbs the min scan). -/
theorem foldl_min_eq (init : ℤ) :
    ∀ (w : List ℤ), (∀ s ∈ w, init ≤ s) → w.foldl min init = init := by
  intro w
  induction w with
  | nil => intro _; rfl
  | cons a rest ih =>
    intro h
    have ha := h a (List.mem_cons_self a rest)
    rw [List.foldl_cons, min_eq_left ha]
    exact ih (fun s hs => h s (List.mem_cons_of_mem a hs))

/-- The `max` fold dominates its seed and every element. -/
theorem le_foldl_max :
    ∀ (w : List ℤ) (init : ℤ), (init ≤ w.foldl max init) ∧ ∀ s ∈ w, s ≤ w.foldl max init := by
  intro w
  induction w with
  | nil => intro init; exact ⟨le_refl _, by simp⟩
  | cons a rest ih =>
    intro init
    rw [List.foldl_cons]
    obtain ⟨hinit, hmem⟩ := ih (max init a)
    refine ⟨le_trans (le_max_left init a) hinit, ?_⟩
    intro s hs
    rcases List.mem_cons.mp hs with rfl | hs
    · exact le_trans (le_max_right init s) hinit
    · exact hmem s hs

/-- For the first-stage bounds, at most one exclusion can happen on each
side, so at least `length - 2 ≥ 1` samples are counted. -/
theorem count_pos_outer (w : List ℤ) (h3 : 3 ≤ w.length)
    (hs : ∀ s ∈ w, 0 ≤ s ∧ s ≤ 4095) :
    1 ≤ (sumLoop w (selectedBounds w).1 (selectedBounds w).2).2 := by
  have hmin0 : w.foldl min MIN_SENTINEL = 0 := by
    have hz : MIN_SENTINEL = 0 := by decide
    rw [hz]
    exact foldl_min_eq 0 w (fun s hs2 => (hs s hs2).1)
  obtain ⟨hinit, hmax⟩ := le_foldl_max w (-1)
  have hacc := sumLoop_count_accounting 0 (w.foldl max (-1)) w
    (selectedBounds w).1 (selectedBounds w).2
    (fun s hs2 => ⟨(hs s hs2).1, hmax s hs2⟩)
  have hsel1 : (selectedBounds w).1 ≤ 1 := by
    simp only [selectedBounds, hmin0]
    split_ifs <;> omega
  have hsel2 : (selectedBounds w).2 = w.foldl max (-1) - 1 := by
    simp only [selectedBounds, hmin0]
  rw [hsel2]
  rw [hsel2] at hacc
  have hlen : (3 : ℤ) ≤ (w.length : ℤ) := by exact_mod_cast h3
  omega

/-- The inner pass either keeps the current bounds or adopts bounds whose
recount — the number of elements within them — was at least 9. -/
theorem innerPass_cases (w : List ℤ) (a b : ℤ) :
    innerPass w a b = (a, b) ∨
    9 ≤ countIn w (innerPass w a b).1 (innerPass w a b).2 := by
  unfold innerPass
  dsimp only
  split_ifs with hc hgood
  · right
    exact hgood.1
  · left
    rfl
  · left
    rfl

/-- C8: for every fully populated averaging window of length 1..64 with raw
samples in 0..4095, the final summation loop retains at least one
contributing sample — the computed count is strictly positive, so the
concluding division is never by zero.  This covers the single-trim path and
the second (inner-bounds) trimming path for `window_length ≥ 16`: an
adopted inner selection requires a recount of at least 9 elements within the
adopted bounds, all of which the summation loop keeps. -/
theorem averager_count_positive (w : List ℤ) (h1 : 1 ≤ w.length) (h64 : w.length ≤ 64)
    (hs : ∀ s ∈ w, 0 ≤ s ∧ s ≤ 4095) :
    1 ≤ averagedCount w := by
  unfold averagedCount finalBounds
  by_cases hL : w.length < 3
  · rw [if_pos hL]
    have hacc := sumLoop_count_accounting 0 4095 w (-1) 32767
      (fun s hs2 => hs s hs2)
    have hlen : (1 : ℤ) ≤ (w.length : ℤ) := by exact_mod_cast h1
    have hz : (1 : ℤ) ≤ ((sumLoop w (-1) 32767).2 : ℤ) := by omega
    simp only []
    exact_mod_cast hz
  · rw [if_neg hL]
    dsimp only
    by_cases h16 : 16 ≤ w.length
    · rw [if_pos h16]
      rcases innerPass_cases w (selectedBounds w).1 (selectedBounds w).2 with heq | hcnt
      · rw [heq]
        exact count_pos_outer w (by omega) hs
      · calc 1 ≤ 9 := by omega
          _ ≤ countIn w (innerPass w (selectedBounds w).1 (selectedBounds w).2).1
                (innerPass w (selectedBounds w).1 (selectedBounds w).2).2 := hcnt
          _ ≤ _ := countIn_le_sumLoop_count w _ _
    · rw [if_neg h16]
      exact count_pos_outer w (by omega) hs

/-- Witness for C8 at a 16-sample window exercising the inner-pass path. -/
theorem averager_count_positive_witness :
    (1 ≤ ([0, 100, 200, 300, 400, 500, 600, 700, 800, 900, 1000, 1100, 1200,
        1300, 1400, 4095] : List ℤ).length ∧
     ([0, 100, 200, 300, 400, 500, 600, 700, 800, 900, 1000, 1100, 1200,
        1300, 1400, 4095] : List ℤ).length ≤ 64 ∧
     ∀ s ∈ ([0, 100, 200, 300, 400, 500, 600, 700, 800, 900, 1000, 1100, 1200,
        1300, 1400, 4095] : List ℤ), 0 ≤ s ∧ s ≤ 4095) ∧
    1 ≤ averagedCount [0, 100, 200, 300, 400, 500, 600, 700, 800, 900, 1000,
        1100, 1200, 1300, 1400, 4095] :=
  ⟨⟨by decide, by decide, by decide⟩,
    averager_count_positive
      [0, 100, 200, 300, 400, 500, 600, 700, 800, 900, 1000, 1100, 1200, 1300, 1400, 4095]
      (by decide) (by decide) (by decide)⟩
